import Mathlib

/-!
# Verification of the search_engine production crawler

A shallow embedding of `src/crawler/production_crawler.py`.

URL strings are modelled as `List Char` internally (with `String` wrappers at
the API boundary).  The Python standard library's `urllib.parse.urlparse` is
modelled by `urlparseL` below, following the CPython implementation of
`urlsplit`/`urlparse`: WHATWG control-character stripping, scheme detection at
the first colon, netloc extraction after a double slash with the bracket
balance check (raising `Invalid IPv6 URL`), fragment and query splitting, and
the `params` split at the first semicolon of the last path segment for schemes
in `uses_params`.  Unicode-specific validation of bracketed hosts and the NFKC
netloc check of newer CPython versions are not modelled; no claim depends on
them.
-/

namespace Crawler

/-- CPython `scheme_chars`: ASCII letters, digits, `+`, `-`, `.`. -/
def schemeCharB (c : Char) : Bool :=
  c.isAlphanum || c == '+' || c == '-' || c == '.'

/-- Split a list at the first occurrence of `sep` (the separator is dropped),
as Python's `str.split(sep, 1)` / `str.find`. -/
def splitOnFirst (sep : Char) : List Char → Option (List Char × List Char)
  | [] => none
  | c :: rest =>
    if c = sep then some ([], rest)
    else (splitOnFirst sep rest).map (fun p => (c :: p.1, p.2))

/-- WHATWG C0-control-or-space: code points `≤ 0x20`. -/
def isC0Space (c : Char) : Bool := decide (c.toNat ≤ 32)

/-- An unsafe URL byte removed everywhere by `urlsplit`: tab, CR, LF. -/
def isUnsafeUrlChar (c : Char) : Bool := c == '\t' || c == '\r' || c == '\n'

/-- The input sanitisation performed at the start of CPython `urlsplit`:
strip leading C0 controls and spaces, then remove every tab/CR/LF. -/
def sanitizeUrl (l : List Char) : List Char :=
  (l.dropWhile isC0Space).filter (fun c => !isUnsafeUrlChar c)

/-- Scheme detection of CPython `urlsplit`: if the first colon is preceded by a
non-empty run of scheme characters starting with an ASCII letter, that run
(lower-cased) is the scheme and the rest follows the colon; otherwise the
scheme is empty and the URL is left untouched. -/
def splitScheme (l : List Char) : List Char × List Char :=
  match splitOnFirst ':' l with
  | none => ([], l)
  | some (pre, post) =>
    match pre with
    | [] => ([], l)
    | c :: _ =>
      if c.isAlpha && pre.all schemeCharB then (pre.map Char.toLower, post)
      else ([], l)

/-- A character ending the netloc in CPython `_splitnetloc`. -/
def netlocStop (c : Char) : Bool := c == '/' || c == '?' || c == '#'

/-- Netloc extraction: only when the remainder starts with `//`; the netloc
runs until the first `/`, `?` or `#`. -/
def splitNetloc (l : List Char) : List Char × List Char :=
  match l with
  | '/' :: '/' :: rest =>
    (rest.takeWhile (fun c => !netlocStop c), rest.dropWhile (fun c => !netlocStop c))
  | _ => ([], l)

/-- The result of `urlsplit`/`urlparse`, mirroring Python's
`SplitResult`/`ParseResult` fields used by the crawler. -/
structure UrlParts where
  scheme : List Char
  netloc : List Char
  path : List Char
  params : List Char
  query : List Char
  fragment : List Char
deriving Repr, DecidableEq

/-- The fragment split of `urlsplit`: `url.split('#', 1)` when a `#` is
present. -/
def splitFrag (l : List Char) : List Char × List Char :=
  match splitOnFirst '#' l with
  | none => (l, [])
  | some ab => ab

/-- The query split of `urlsplit`: `url.split('?', 1)` when a `?` is
present. -/
def splitQuery (l : List Char) : List Char × List Char :=
  match splitOnFirst '?' l with
  | none => (l, [])
  | some ab => ab

/-- CPython `urlsplit` (with `allow_fragments=True`, as the crawler always
calls it).  Errors model the `ValueError` raised on unbalanced brackets. -/
def urlsplitL (l0 : List Char) : Except String UrlParts :=
  let l := sanitizeUrl l0
  let sr := splitScheme l
  let nr := splitNetloc sr.2
  if (nr.1.contains '[' != nr.1.contains ']') then
    .error "Invalid IPv6 URL"
  else
    .ok ⟨sr.1, nr.1, (splitQuery (splitFrag nr.2).1).1, [],
         (splitQuery (splitFrag nr.2).1).2, (splitFrag nr.2).2⟩

/-- CPython `uses_params`: schemes whose path carries `;params`. -/
def uses_params : List String :=
  ["", "ftp", "hdl", "prospero", "http", "imap", "https", "shttp",
   "rtsp", "rtspu", "sip", "sips", "mms", "sftp", "tel"]

/-- CPython `_splitparams`: split the path at the first `;` occurring in the
segment after the last `/` (or the first `;` anywhere if there is no `/`). -/
def splitparamsL (u : List Char) : List Char × List Char :=
  if u.contains '/' then
    let segR := u.reverse.takeWhile (fun c => c != '/')
    let preR := u.reverse.dropWhile (fun c => c != '/')
    match splitOnFirst ';' segR.reverse with
    | none => (u, [])
    | some (a, b) => (preR.reverse ++ a, b)
  else
    match splitOnFirst ';' u with
    | none => (u, [])
    | some (a, b) => (a, b)

/-- CPython `urlparse`: `urlsplit` plus the params split for `uses_params`
schemes.  The crawler's `normalize_url` reads `scheme`, `netloc`, `path` and
`query` from this result. -/
def urlparseL (l : List Char) : Except String UrlParts :=
  match urlsplitL l with
  | .error e => .error e
  | .ok p =>
    if uses_params.contains (String.mk p.scheme) && p.path.contains ';' then
      .ok ⟨p.scheme, p.netloc, (splitparamsL p.path).1, (splitparamsL p.path).2,
           p.query, p.fragment⟩
    else
      .ok p

/-- `urlparse` on Lean strings. -/
def urlparse (s : String) : Except String UrlParts := urlparseL s.data

/-- The string `normalized` assembled by `normalize_url` before the
trailing-slash adjustment (source lines 249–253):
`f"{parsed.scheme}://{parsed.netloc}{parsed.path}"` plus `?query` if the query
is non-empty. -/
def normalize_core (p : UrlParts) : List Char :=
  let base := p.scheme ++ ("://".data) ++ p.netloc ++ p.path
  if p.query ≠ [] then base ++ '?' :: p.query else base

/-- `normalize_url` (source lines 233–262) on character lists: reject when the
parse raises, when scheme or netloc is empty, or when the scheme is not http or
https; otherwise assemble scheme://netloc+path(+?query) and drop the final
character when that assembled string ends with `/` and `len(parsed.path) > 1`. -/
def normalizeL (l : List Char) : Option (List Char) :=
  match urlparseL l with
  | .error _ => none
  | .ok p =>
    if p.scheme = [] ∨ p.netloc = [] then none
    else if ¬ (p.scheme = "http".data ∨ p.scheme = "https".data) then none
    else
      let norm := normalize_core p
      if norm.getLast? = some '/' ∧ 1 < p.path.length then
        some norm.dropLast
      else
        some norm

/-- `normalize_url` on Lean strings: the crawler's URL canonicalisation. -/
def normalize_url (s : String) : Option String :=
  (normalizeL s.data).map String.mk

example : normalize_url "http://a.test/a//" = some "http://a.test/a/" := by decide
example : normalize_url "http://a.test/a/" = some "http://a.test/a" := by decide
example : normalize_url "http://a.test/x?q=/" = some "http://a.test/x?q=" := by decide
example : normalize_url "http://a.test/" = some "http://a.test/" := by decide
example : normalize_url "http://a.test" = some "http://a.test" := by decide
example : normalize_url "HTTP://A.test/x#f" = some "http://A.test/x" := by decide
example : normalize_url "ftp://a.test/x" = none := by decide
example : normalize_url "http:a" = none := by decide
example : normalize_url "://x" = none := by decide
example : normalize_url "http://[::1/x" = none := by decide
example : normalize_url "http://a.test/x;p=1" = some "http://a.test/x" := by decide
example : normalize_url "http://a.test/x;p=1/" = some "http://a.test/x;p=1" := by decide

/-!
## The BFS crawl loop (source lines 265–388)

The loop body of `bfs` is embedded as a deterministic step function over an
explicit state, parameterised by an oracle supplying the outcome of each
external interaction: whether `download_file` returned a saved path, the link
list produced by `parse_url` on the saved file, and the answer of the second
`robot_checker.can_fetch` call used to classify a failure as blocked.  Oracle
functions are indexed by the number of fetch attempts made so far, so the
environment may behave arbitrarily per attempt.  `docs` and `attempts` record
the observable events (documents persisted to disk, HTTP fetch attempts
issued), newest first.
-/

/-- Configuration of a `bfs` run: `max_urls`, `max_depth`, `same_domain_only`
and the precomputed seed-domain set (source lines 293–297). -/
structure Config where
  max_urls : Nat
  max_depth : Nat
  same_domain_only : Bool
  seed_domains : List String
deriving Repr

/-- Environment behaviour for one `bfs` run, indexed by fetch-attempt count:
`ok k` tells whether the `k`-th call to `download_file` returned a path,
`links k` is what `parse_url` extracts from the saved file, and
`recheck k` is the result of the post-failure `robot_checker.can_fetch` call
(`false` means blocked). -/
structure FetchOracle where
  ok : Nat → Bool
  links : Nat → List String
  recheck : Nat → Bool

/-- The mutable state of the `bfs` loop (source lines 283–287), together with
the event histories `docs` (persisted documents `(doc_id, url, depth)`) and
`attempts` (issued fetch attempts `(url, depth)`), newest first. -/
structure CrawlState where
  queue : List (String × Nat)
  visited : List String
  doc_id : Nat
  crawled : Nat
  failed : Nat
  blocked : Nat
  docs : List (Nat × String × Nat)
  attempts : List (String × Nat)
deriving Repr

/-- Initial loop state for seed queue `q0`. -/
def initState (q0 : List (String × Nat)) : CrawlState :=
  { queue := q0, visited := [], doc_id := 0, crawled := 0, failed := 0
    blocked := 0, docs := [], attempts := [] }

/-- The netloc of a URL as used by the `same_domain_only` check
(source lines 331–334); parse failures cannot occur for normalized URLs. -/
def netlocOf (s : String) : Option String :=
  match urlparseL s.data with
  | .ok p => some (String.mk p.netloc)
  | .error _ => none

/-- One iteration of the `bfs` while-loop (source lines 314–362).  `none`
means the loop condition `url_queue and crawled_count < max_urls` failed and
the loop exits. -/
def bfsStep (cfg : Config) (o : FetchOracle) (s : CrawlState) : Option CrawlState :=
  match s.queue with
  | [] => none
  | (url, depth) :: rest =>
    if cfg.max_urls ≤ s.crawled then none
    else if cfg.max_depth < depth then
      some { s with queue := rest }
    else
      match normalize_url url with
      | none => some { s with queue := rest }
      | some nurl =>
        if nurl ∈ s.visited then
          some { s with queue := rest }
        else if cfg.same_domain_only &&
            !(match netlocOf nurl with
              | some d => cfg.seed_domains.contains d
              | none => false) then
          some { s with queue := rest }
        else
          if o.ok s.attempts.length then
            some { queue := rest ++
                     (if depth < cfg.max_depth then
                        ((o.links s.attempts.length).filter
                          (fun l => !(nurl :: s.visited).contains l)).map
                          (fun l => (l, depth + 1))
                      else [])
                   visited := nurl :: s.visited
                   doc_id := s.doc_id + 1, crawled := s.crawled + 1
                   failed := s.failed, blocked := s.blocked
                   docs := (s.doc_id, nurl, depth) :: s.docs
                   attempts := (nurl, depth) :: s.attempts }
          else if o.recheck s.attempts.length then
            some { s with queue := rest, visited := nurl :: s.visited
                          failed := s.failed + 1
                          attempts := (nurl, depth) :: s.attempts }
          else
            some { s with queue := rest, visited := nurl :: s.visited
                          blocked := s.blocked + 1
                          attempts := (nurl, depth) :: s.attempts }

/-- The loop state after at most `n` iterations; once the loop condition
fails the state stays fixed. -/
def bfsRun (cfg : Config) (o : FetchOracle) (q0 : List (String × Nat)) : Nat → CrawlState
  | 0 => initState q0
  | n + 1 =>
    match bfsStep cfg o (bfsRun cfg o q0 n) with
    | some s => s
    | none => bfsRun cfg o q0 n

/-- The statistics record assembled at the end of `bfs`
(source lines 366–373), restricted to its integer fields; the two wall-clock
fields are not modelled. -/
structure Stats where
  crawled : Nat
  failed : Nat
  blocked : Nat
  total_visited : Nat
deriving Repr, DecidableEq

/-- `stats` as built from the final loop state (source lines 366–373). -/
def mkStats (s : CrawlState) : Stats :=
  { crawled := s.crawled, failed := s.failed, blocked := s.blocked
    total_visited := s.visited.length }

/-!
## Invariants of the crawl loop
-/

/-- The inductive invariant of the `bfs` loop, relative to a configuration and
the initial queue `q0`. -/
structure BfsInv (cfg : Config) (q0 : List (String × Nat)) (s : CrawlState) : Prop where
  partition : s.crawled + s.failed + s.blocked = s.visited.length
  attempts_nodup : (s.attempts.map Prod.fst).Nodup
  attempts_visited : ∀ a ∈ s.attempts, a.1 ∈ s.visited
  attempts_depth : ∀ a ∈ s.attempts, a.2 ≤ cfg.max_depth
  docs_nodup : (s.docs.map (fun d => d.2.1)).Nodup
  docs_visited : ∀ d ∈ s.docs, d.2.1 ∈ s.visited
  docs_depth : ∀ d ∈ s.docs, d.2.2 ≤ cfg.max_depth
  docs_count : s.docs.length = s.crawled
  crawled_le : s.crawled ≤ cfg.max_urls
  queue_depth : ∀ e ∈ s.queue, e ∈ q0 ∨ e.2 ≤ cfg.max_depth

theorem bfsInv_init (cfg : Config) (q0 : List (String × Nat)) :
    BfsInv cfg q0 (initState q0) := by
  refine ⟨?_, ?_, ?_, ?_, ?_, ?_, ?_, ?_, ?_, fun e he => Or.inl he⟩ <;>
    simp [initState]

/-- Dropping the head of the queue preserves the invariant. -/
theorem bfsInv_dequeue {cfg : Config} {q0 : List (String × Nat)} {s : CrawlState}
    {url : String} {depth : Nat} {rest : List (String × Nat)}
    (hque : s.queue = (url, depth) :: rest) (hs : BfsInv cfg q0 s) :
    BfsInv cfg q0 { s with queue := rest } := by
  refine ⟨hs.partition, hs.attempts_nodup, hs.attempts_visited, hs.attempts_depth,
    hs.docs_nodup, hs.docs_visited, hs.docs_depth, hs.docs_count, hs.crawled_le, ?_⟩
  intro e he
  exact hs.queue_depth e (by rw [hque]; exact List.mem_cons_of_mem _ he)

/-- One loop iteration can only extend the visited set. -/
theorem bfsStep_visited_mono {cfg : Config} {o : FetchOracle} {s s' : CrawlState}
    (h : bfsStep cfg o s = some s') : s.visited ⊆ s'.visited := by
  unfold bfsStep at h
  split at h
  · exact Option.noConfusion h
  · split at h
    · exact Option.noConfusion h
    · split at h
      · cases h; exact fun x hx => hx
      · split at h
        · cases h; exact fun x hx => hx
        · split at h
          · cases h; exact fun x hx => hx
          · split at h
            · cases h; exact fun x hx => hx
            · split at h
              · cases h; exact fun x hx => List.mem_cons_of_mem _ hx
              · split at h
                · cases h; exact fun x hx => List.mem_cons_of_mem _ hx
                · cases h; exact fun x hx => List.mem_cons_of_mem _ hx

/-- The invariant is preserved by one loop iteration. -/
theorem bfsStep_inv {cfg : Config} {o : FetchOracle} {q0 : List (String × Nat)}
    {s s' : CrawlState} (h : bfsStep cfg o s = some s') (hs : BfsInv cfg q0 s) :
    BfsInv cfg q0 s' := by
  unfold bfsStep at h
  split at h
  · exact Option.noConfusion h
  next url depth rest hque =>
    have hqrest : ∀ e ∈ rest, e ∈ q0 ∨ e.2 ≤ cfg.max_depth := by
      intro e he
      exact hs.queue_depth e (by rw [hque]; exact List.mem_cons_of_mem _ he)
    split at h
    · exact Option.noConfusion h
    next hbudget =>
      split at h
      next hdepth =>
        cases h
        exact bfsInv_dequeue hque hs
      next hdepth =>
        have hdle : depth ≤ cfg.max_depth := Nat.le_of_not_lt hdepth
        split at h
        · cases h
          exact bfsInv_dequeue hque hs
        next nurl hnorm =>
          split at h
          next hvis =>
            cases h
            exact bfsInv_dequeue hque hs
          next hvis =>
            have hnv : nurl ∉ s.visited := hvis
            have hattfst : nurl ∉ s.attempts.map Prod.fst := by
              intro hmem
              obtain ⟨a, ha, hfst⟩ := List.mem_map.mp hmem
              exact hnv (hfst ▸ hs.attempts_visited a ha)
            have hdocfst : nurl ∉ s.docs.map (fun d => d.2.1) := by
              intro hmem
              obtain ⟨d, hd, hfst⟩ := List.mem_map.mp hmem
              exact hnv (hfst ▸ hs.docs_visited d hd)
            split at h
            · cases h
              exact bfsInv_dequeue hque hs
            · split at h
              next hok =>
                cases h
                refine ⟨?_, ?_, ?_, ?_, ?_, ?_, ?_, ?_, ?_, ?_⟩
                · show s.crawled + 1 + s.failed + s.blocked = (nurl :: s.visited).length
                  have hp := hs.partition
                  rw [List.length_cons]
                  omega
                · show (((nurl, depth) :: s.attempts).map Prod.fst).Nodup
                  rw [List.map_cons]
                  exact List.nodup_cons.mpr ⟨hattfst, hs.attempts_nodup⟩
                · intro a ha
                  show a.1 ∈ nurl :: s.visited
                  rcases List.mem_cons.mp ha with rfl | ha
                  · exact List.mem_cons_self _ _
                  · exact List.mem_cons_of_mem _ (hs.attempts_visited a ha)
                · intro a ha
                  rcases List.mem_cons.mp ha with rfl | ha
                  · exact hdle
                  · exact hs.attempts_depth a ha
                · show ((((s.doc_id, nurl, depth)) :: s.docs).map (fun d => d.2.1)).Nodup
                  rw [List.map_cons]
                  exact List.nodup_cons.mpr ⟨hdocfst, hs.docs_nodup⟩
                · intro d hd
                  show d.2.1 ∈ nurl :: s.visited
                  rcases List.mem_cons.mp hd with rfl | hd
                  · exact List.mem_cons_self _ _
                  · exact List.mem_cons_of_mem _ (hs.docs_visited d hd)
                · intro d hd
                  rcases List.mem_cons.mp hd with rfl | hd
                  · exact hdle
                  · exact hs.docs_depth d hd
                · show ((s.doc_id, nurl, depth) :: s.docs).length = s.crawled + 1
                  rw [List.length_cons, hs.docs_count]
                · show s.crawled + 1 ≤ cfg.max_urls
                  exact Nat.succ_le_of_lt (Nat.lt_of_not_le hbudget)
                · intro e he
                  rcases List.mem_append.mp he with he | he
                  · exact hqrest e he
                  · right
                    split at he
                    next hlt =>
                      obtain ⟨l, _, rfl⟩ := List.mem_map.mp he
                      exact Nat.succ_le_of_lt hlt
                    · simp at he
              next hok =>
                split at h <;>
                · cases h
                  refine ⟨?_, ?_, ?_, ?_, hs.docs_nodup, ?_, hs.docs_depth,
                    hs.docs_count, hs.crawled_le, fun e he => hqrest e he⟩
                  · have hp := hs.partition
                    dsimp only
                    rw [List.length_cons]
                    omega
                  · show (((nurl, depth) :: s.attempts).map Prod.fst).Nodup
                    rw [List.map_cons]
                    exact List.nodup_cons.mpr ⟨hattfst, hs.attempts_nodup⟩
                  · intro a ha
                    show a.1 ∈ nurl :: s.visited
                    rcases List.mem_cons.mp ha with rfl | ha
                    · exact List.mem_cons_self _ _
                    · exact List.mem_cons_of_mem _ (hs.attempts_visited a ha)
                  · intro a ha
                    rcases List.mem_cons.mp ha with rfl | ha
                    · exact hdle
                    · exact hs.attempts_depth a ha
                  · intro d hd
                    show d.2.1 ∈ nurl :: s.visited
                    exact List.mem_cons_of_mem _ (hs.docs_visited d hd)

/-- The invariant holds after any number of loop iterations. -/
theorem bfsRun_inv (cfg : Config) (o : FetchOracle) (q0 : List (String × Nat))
    (n : Nat) : BfsInv cfg q0 (bfsRun cfg o q0 n) := by
  induction n with
  | zero => exact bfsInv_init cfg q0
  | succ n ih =>
    unfold bfsRun
    cases hst : bfsStep cfg o (bfsRun cfg o q0 n) with
    | none => exact ih
    | some s => exact bfsStep_inv hst ih

/-- The visited set only grows as the run proceeds. -/
theorem bfsRun_visited_mono (cfg : Config) (o : FetchOracle)
    (q0 : List (String × Nat)) (n k : Nat) :
    (bfsRun cfg o q0 n).visited ⊆ (bfsRun cfg o q0 (n + k)).visited := by
  induction k with
  | zero => exact fun x hx => hx
  | succ k ih =>
    intro x hx
    have hmem := ih hx
    show x ∈ (bfsRun cfg o q0 (n + k + 1)).visited
    unfold bfsRun
    cases hst : bfsStep cfg o (bfsRun cfg o q0 (n + k)) with
    | none => exact hmem
    | some s => exact bfsStep_visited_mono hst hmem

/-- The loop exits exactly when the queue is empty or the success budget is
reached (the `while url_queue and crawled_count < max_urls` guard). -/
theorem bfsStep_none_iff (cfg : Config) (o : FetchOracle) (s : CrawlState) :
    bfsStep cfg o s = none ↔ (s.queue = [] ∨ cfg.max_urls ≤ s.crawled) := by
  constructor
  · intro h
    unfold bfsStep at h
    split at h
    next heq => exact Or.inl heq
    next url depth rest heq =>
      split at h
      next hb => exact Or.inr hb
      next hb =>
        split at h
        · exact Option.noConfusion h
        · split at h
          · exact Option.noConfusion h
          · split at h
            · exact Option.noConfusion h
            · split at h
              · exact Option.noConfusion h
              · split at h
                · exact Option.noConfusion h
                · split at h <;> exact Option.noConfusion h
  · intro h
    unfold bfsStep
    split
    · rfl
    next url depth rest heq =>
      rcases h with h | h
      · rw [heq] at h
        exact List.noConfusion h
      · rw [if_pos h]

/-!
## Example runs used to witness the loop theorems
-/

/-- A small crawl configuration: budget 10, depth bound 1, no domain
restriction. -/
def exampleCfg : Config :=
  { max_urls := 10, max_depth := 1, same_domain_only := false, seed_domains := [] }

/-- An environment where every fetch succeeds and every page links to
`http://a.test/x`. -/
def exampleOracle : FetchOracle :=
  { ok := fun _ => true, links := fun _ => ["http://a.test/x"], recheck := fun _ => true }

/-- A single-seed queue. -/
def exampleSeeds : List (String × Nat) := [("http://a.test/", 0)]

/-- A configuration with a success budget of one. -/
def budgetCfg : Config :=
  { max_urls := 1, max_depth := 2, same_domain_only := false, seed_domains := [] }

/-- An environment where every fetch succeeds and yields two fresh links. -/
def budgetOracle : FetchOracle :=
  { ok := fun _ => true, links := fun _ => ["http://a.test/b", "http://a.test/c"]
    recheck := fun _ => true }

/-- An environment whose first fetch succeeds, second fails (robots allow) and
third fails (robots block). -/
def mixedOracle : FetchOracle :=
  { ok := fun k => k == 0, links := fun _ => ["http://a.test/p", "http://a.test/q"]
    recheck := fun k => k == 1 }

/-!
## Claims about the crawl loop
-/

/-- C1: in every run of `bfs`, a normalized URL is added to the visited set
when the engine commits to attempting it, the visited set never shrinks, and
already-visited URLs are skipped at pop time — so the issued fetch attempts
carry pairwise-distinct normalized URLs and every normalized URL appears in
the persisted document set at most once, even when attempts fail. -/
theorem bfs_at_most_once_fetch (cfg : Config) (o : FetchOracle)
    (q0 : List (String × Nat)) (n k : Nat) :
    ((bfsRun cfg o q0 n).attempts.map Prod.fst).Nodup ∧
    ((bfsRun cfg o q0 n).docs.map (fun d => d.2.1)).Nodup ∧
    (∀ a ∈ (bfsRun cfg o q0 n).attempts, a.1 ∈ (bfsRun cfg o q0 n).visited) ∧
    (bfsRun cfg o q0 n).visited ⊆ (bfsRun cfg o q0 (n + k)).visited :=
  ⟨(bfsRun_inv cfg o q0 n).attempts_nodup,
   (bfsRun_inv cfg o q0 n).docs_nodup,
   (bfsRun_inv cfg o q0 n).attempts_visited,
   bfsRun_visited_mono cfg o q0 n k⟩

theorem bfs_at_most_once_fetch_witness :
    ("http://a.test/x", 1) ∈ (bfsRun exampleCfg exampleOracle exampleSeeds 3).attempts ∧
    "http://a.test/x" ∈ (bfsRun exampleCfg exampleOracle exampleSeeds 3).visited :=
  ⟨by decide,
   (bfs_at_most_once_fetch exampleCfg exampleOracle exampleSeeds 3 0).2.2.1 ("http://a.test/x", 1) (by decide)⟩

/-- C2: links are enqueued at `depth+1` only when the parent's depth is below
`max_depth`, entries deeper than `max_depth` are discarded without a fetch,
and failures or blocks expand nothing — so every fetch attempt and every
persisted document sits at BFS depth at most `max_depth`, and every queue
entry not inherited from the seed queue does too. -/
theorem bfs_depth_bound (cfg : Config) (o : FetchOracle)
    (q0 : List (String × Nat)) (n : Nat) :
    (∀ d ∈ (bfsRun cfg o q0 n).docs, d.2.2 ≤ cfg.max_depth) ∧
    (∀ a ∈ (bfsRun cfg o q0 n).attempts, a.2 ≤ cfg.max_depth) ∧
    (∀ e ∈ (bfsRun cfg o q0 n).queue, e ∈ q0 ∨ e.2 ≤ cfg.max_depth) :=
  ⟨(bfsRun_inv cfg o q0 n).docs_depth,
   (bfsRun_inv cfg o q0 n).attempts_depth,
   (bfsRun_inv cfg o q0 n).queue_depth⟩

theorem bfs_depth_bound_witness :
    (1, "http://a.test/x", 1) ∈ (bfsRun exampleCfg exampleOracle exampleSeeds 3).docs ∧
    (1, "http://a.test/x", 1).2.2 ≤ exampleCfg.max_depth :=
  ⟨by decide,
   (bfs_depth_bound exampleCfg exampleOracle exampleSeeds 3).1 (1, "http://a.test/x", 1) (by decide)⟩

/-- C3: the number of successful fetches, which equals the number of persisted
documents, never exceeds `max_urls`, and the loop stops exactly when the queue
empties or the success count reaches `max_urls` — even with a non-empty
frontier remaining. -/
theorem bfs_budget_bound (cfg : Config) (o : FetchOracle)
    (q0 : List (String × Nat)) (n : Nat) :
    (bfsRun cfg o q0 n).crawled ≤ cfg.max_urls ∧
    (bfsRun cfg o q0 n).docs.length = (bfsRun cfg o q0 n).crawled ∧
    (bfsStep cfg o (bfsRun cfg o q0 n) = none ↔
      ((bfsRun cfg o q0 n).queue = [] ∨
        cfg.max_urls ≤ (bfsRun cfg o q0 n).crawled)) :=
  ⟨(bfsRun_inv cfg o q0 n).crawled_le,
   (bfsRun_inv cfg o q0 n).docs_count,
   bfsStep_none_iff cfg o (bfsRun cfg o q0 n)⟩

theorem bfs_budget_bound_witness :
    (bfsRun budgetCfg budgetOracle exampleSeeds 1).queue ≠ [] ∧
    (bfsRun budgetCfg budgetOracle exampleSeeds 1).crawled = budgetCfg.max_urls ∧
    bfsStep budgetCfg budgetOracle (bfsRun budgetCfg budgetOracle exampleSeeds 1) = none :=
  ⟨by decide, by decide,
   (bfs_budget_bound budgetCfg budgetOracle exampleSeeds 1).2.2.mpr (Or.inr (by decide))⟩

/-- C10: whenever `bfs` runs from a non-empty queue, the crawled, failed and
blocked counters partition the visited set at the top of every iteration and
in the returned statistics: `total_visited = crawled + failed + blocked`. -/
theorem bfs_outcome_partition (cfg : Config) (o : FetchOracle)
    (q0 : List (String × Nat)) (n : Nat) (_hq : q0 ≠ []) :
    (bfsRun cfg o q0 n).crawled + (bfsRun cfg o q0 n).failed +
        (bfsRun cfg o q0 n).blocked = (bfsRun cfg o q0 n).visited.length ∧
    (mkStats (bfsRun cfg o q0 n)).crawled + (mkStats (bfsRun cfg o q0 n)).failed +
        (mkStats (bfsRun cfg o q0 n)).blocked =
      (mkStats (bfsRun cfg o q0 n)).total_visited :=
  ⟨(bfsRun_inv cfg o q0 n).partition, (bfsRun_inv cfg o q0 n).partition⟩

theorem bfs_outcome_partition_witness :
    exampleSeeds ≠ [] ∧
    (bfsRun exampleCfg mixedOracle exampleSeeds 3).crawled +
        (bfsRun exampleCfg mixedOracle exampleSeeds 3).failed +
        (bfsRun exampleCfg mixedOracle exampleSeeds 3).blocked =
      (bfsRun exampleCfg mixedOracle exampleSeeds 3).visited.length :=
  ⟨by decide,
   (bfs_outcome_partition exampleCfg mixedOracle exampleSeeds 3 (by decide)).1⟩

example :
    (bfsRun exampleCfg mixedOracle exampleSeeds 3).crawled = 1 ∧
    (bfsRun exampleCfg mixedOracle exampleSeeds 3).failed = 1 ∧
    (bfsRun exampleCfg mixedOracle exampleSeeds 3).blocked = 1 ∧
    (bfsRun exampleCfg mixedOracle exampleSeeds 3).visited.length = 3 := by
  decide

/-!
## RobotChecker (source lines 45–106)

`RobotFileParser` rulesets are modelled opaquely as decision functions
`(user_agent, url) ↦ allowed`.  The network is an oracle indexed by the number
of robots.txt fetches attempted so far; `none` models `rp.read()` raising.
The ghost field `fetch_trace` records, newest first, the domains for which a
robots.txt fetch was attempted.
-/

/-- A parsed robots.txt ruleset: `rp.can_fetch(user_agent, url)`. -/
def RuleSet : Type := String → String → Bool

/-- The mutable state of `RobotChecker` (source lines 48–52), plus the ghost
fetch trace. -/
structure RobotChecker where
  robots_cache : List (String × RuleSet)
  user_agent : String
  respect_robots : Bool
  failed_domains : List String
  fetch_trace : List String

/-- `RobotChecker.__init__`. -/
def RobotChecker.init (user_agent : String) (respect_robots : Bool) : RobotChecker :=
  { robots_cache := [], user_agent := user_agent, respect_robots := respect_robots
    failed_domains := [], fetch_trace := [] }

/-- `f"{parsed.scheme}://{parsed.netloc}"`: the per-domain key used by
`RobotChecker.can_fetch` (source lines 60–61) and `DomainRateLimiter`
(source lines 118–119); `none` models `urlparse` raising. -/
def originOf (url : String) : Option String :=
  match urlparseL url.data with
  | .ok p => some (String.mk (p.scheme ++ "://".data ++ p.netloc))
  | .error _ => none

/-- The environment's robots.txt answers, indexed by fetch-attempt count:
`none` models an exception while reading robots.txt. -/
structure RobotsOracle where
  fetchRobots : Nat → Option RuleSet

/-- `RobotChecker.can_fetch` (source lines 54–106): allowed when robots are
not respected or the URL does not parse (the enclosing `except` returns
`True`); allowed without any fetch for a fail-open domain; on first encounter
of a domain, fetch robots.txt — on failure mark the domain fail-open and
allow, on success cache the ruleset; finally consult the cached ruleset. -/
def RobotChecker.can_fetch (o : RobotsOracle) (s : RobotChecker) (url : String) :
    Bool × RobotChecker :=
  if !s.respect_robots then (true, s)
  else
    match originOf url with
    | none => (true, s)
    | some domain =>
      if domain ∈ s.failed_domains then (true, s)
      else
        match s.robots_cache.lookup domain with
        | some robot => (robot s.user_agent url, s)
        | none =>
          match o.fetchRobots s.fetch_trace.length with
          | none =>
            (true, { s with failed_domains := domain :: s.failed_domains
                            fetch_trace := domain :: s.fetch_trace })
          | some rp =>
            match ((domain, rp) :: s.robots_cache).lookup domain with
            | none =>
              (true, { s with robots_cache := (domain, rp) :: s.robots_cache
                              fetch_trace := domain :: s.fetch_trace })
            | some robot =>
              (robot s.user_agent url,
               { s with robots_cache := (domain, rp) :: s.robots_cache
                        fetch_trace := domain :: s.fetch_trace })

/-- A sequence of `can_fetch` calls, threading the checker state. -/
def robotsRun (o : RobotsOracle) (s : RobotChecker) : List String → RobotChecker
  | [] => s
  | u :: us => robotsRun o (RobotChecker.can_fetch o s u).2 us

/-- A checker in a fail-open state for `d` answers `true` without touching its
state (in particular without fetching robots.txt again). -/
theorem can_fetch_failed {o : RobotsOracle} {s : RobotChecker} {url d : String}
    (h1 : originOf url = some d) (h2 : d ∈ s.failed_domains) :
    RobotChecker.can_fetch o s url = (true, s) := by
  unfold RobotChecker.can_fetch
  split
  · rfl
  · rw [h1]
    simp only
    rw [if_pos h2]

/-- A URL on which `urlparse` raises is always allowed, with no state
change. -/
theorem can_fetch_parse_error {o : RobotsOracle} {s : RobotChecker} {url : String}
    (h : originOf url = none) :
    RobotChecker.can_fetch o s url = (true, s) := by
  unfold RobotChecker.can_fetch
  split
  · rfl
  · rw [h]

/-- `can_fetch` never removes a domain from the fail-open set. -/
theorem can_fetch_failed_mono {o : RobotsOracle} {s : RobotChecker} {url : String} :
    s.failed_domains ⊆ (RobotChecker.can_fetch o s url).2.failed_domains := by
  unfold RobotChecker.can_fetch
  split
  · exact fun x hx => hx
  · split
    · exact fun x hx => hx
    · split
      · exact fun x hx => hx
      · split
        · exact fun x hx => hx
        · split
          · exact fun x hx => List.mem_cons_of_mem _ hx
          · split
            · exact fun x hx => hx
            · exact fun x hx => hx

theorem robotsRun_append (o : RobotsOracle) (s : RobotChecker) (us vs : List String) :
    robotsRun o s (us ++ vs) = robotsRun o (robotsRun o s us) vs := by
  induction us generalizing s with
  | nil => rfl
  | cons u us ih => simp [robotsRun, ih]

theorem robotsRun_failed_mono (o : RobotsOracle) (s : RobotChecker) (urls : List String) :
    s.failed_domains ⊆ (robotsRun o s urls).failed_domains := by
  induction urls generalizing s with
  | nil => exact fun x hx => hx
  | cons u us ih => exact fun x hx => ih _ (can_fetch_failed_mono hx)

/-- The robots-fetch bookkeeping invariant: every domain in the fetch trace is
settled (cached or fail-open), and no domain is fetched twice. -/
structure RobotsInv (s : RobotChecker) : Prop where
  trace_nodup : s.fetch_trace.Nodup
  trace_mem : ∀ d ∈ s.fetch_trace, (s.robots_cache.lookup d).isSome ∨ d ∈ s.failed_domains

theorem robotsInv_init (ua : String) (r : Bool) : RobotsInv (RobotChecker.init ua r) :=
  ⟨List.nodup_nil, by intro d hd; simp [RobotChecker.init] at hd⟩

theorem lookup_cons_isSome {α β : Type} [BEq α] {l : List (α × β)} {d k : α} {v : β}
    (h : (l.lookup d).isSome) : (((k, v) :: l).lookup d).isSome := by
  rw [List.lookup_cons]
  cases hdk : d == k
  · simpa using h
  · simp

theorem can_fetch_inv {o : RobotsOracle} {s : RobotChecker} {url : String}
    (hs : RobotsInv s) : RobotsInv (RobotChecker.can_fetch o s url).2 := by
  unfold RobotChecker.can_fetch
  split
  · exact hs
  · split
    · exact hs
    next domain hdom =>
      split
      · exact hs
      next hnf =>
        split
        · exact hs
        next hlk =>
          have hnt : domain ∉ s.fetch_trace := by
            intro hmem
            rcases hs.trace_mem domain hmem with hsome | hfail
            · rw [hlk] at hsome
              simp at hsome
            · exact hnf hfail
          split
          next hfetch =>
            refine ⟨List.nodup_cons.mpr ⟨hnt, hs.trace_nodup⟩, ?_⟩
            intro d hd
            rcases List.mem_cons.mp hd with rfl | hd
            · exact Or.inr (List.mem_cons_self _ _)
            · rcases hs.trace_mem d hd with hsome | hfail
              · exact Or.inl hsome
              · exact Or.inr (List.mem_cons_of_mem _ hfail)
          next rp hfetch =>
            have hnext : RobotsInv
                { s with robots_cache := (domain, rp) :: s.robots_cache
                         fetch_trace := domain :: s.fetch_trace } := by
              refine ⟨List.nodup_cons.mpr ⟨hnt, hs.trace_nodup⟩, ?_⟩
              intro d hd
              rcases List.mem_cons.mp hd with rfl | hd
              · refine Or.inl ?_
                rw [List.lookup_cons]
                simp
              · rcases hs.trace_mem d hd with hsome | hfail
                · exact Or.inl (lookup_cons_isSome hsome)
                · exact Or.inr hfail
            split
            · exact hnext
            · exact hnext

theorem robotsRun_inv (o : RobotsOracle) (s : RobotChecker) (urls : List String)
    (hs : RobotsInv s) : RobotsInv (robotsRun o s urls) := by
  induction urls generalizing s with
  | nil => exact hs
  | cons u us ih => exact ih _ (can_fetch_inv hs)

/-- C6: once a domain's robots.txt fetch has failed, every later `can_fetch`
for a URL on that origin returns `true` and leaves the checker unchanged (so
the robots.txt fetch is never re-attempted — across the whole run every
domain is fetched at most once), the fail-open marking persists for the
remainder of the run, and a URL on which the internal origin computation
raises is also allowed. -/
theorem robots_fail_open (o : RobotsOracle) (ua : String)
    (urls more : List String) (url url2 d : String)
    (h1 : originOf url = some d)
    (h2 : d ∈ (robotsRun o (RobotChecker.init ua true) urls).failed_domains)
    (h3 : originOf url2 = none) :
    RobotChecker.can_fetch o (robotsRun o (RobotChecker.init ua true) urls) url
      = (true, robotsRun o (RobotChecker.init ua true) urls) ∧
    d ∈ (robotsRun o (RobotChecker.init ua true) (urls ++ more)).failed_domains ∧
    (robotsRun o (RobotChecker.init ua true) (urls ++ more)).fetch_trace.Nodup ∧
    RobotChecker.can_fetch o (robotsRun o (RobotChecker.init ua true) urls) url2
      = (true, robotsRun o (RobotChecker.init ua true) urls) := by
  refine ⟨can_fetch_failed h1 h2, ?_, ?_, can_fetch_parse_error h3⟩
  · rw [robotsRun_append]
    exact robotsRun_failed_mono o _ more h2
  · exact (robotsRun_inv o _ (urls ++ more) (robotsInv_init ua true)).trace_nodup

/-- An environment with no reachable robots.txt at all. -/
def failingRobotsOracle : RobotsOracle := ⟨fun _ => none⟩

theorem robots_fail_open_witness :
    RobotChecker.can_fetch failingRobotsOracle
        (robotsRun failingRobotsOracle (RobotChecker.init "SearchEngineBot/1.0" true)
          ["http://a.test/p"]) "http://a.test/q"
      = (true, robotsRun failingRobotsOracle (RobotChecker.init "SearchEngineBot/1.0" true)
          ["http://a.test/p"]) ∧
    "http://a.test" ∈ (robotsRun failingRobotsOracle
        (RobotChecker.init "SearchEngineBot/1.0" true)
        (["http://a.test/p"] ++ ["http://b.test/"])).failed_domains ∧
    (robotsRun failingRobotsOracle (RobotChecker.init "SearchEngineBot/1.0" true)
        (["http://a.test/p"] ++ ["http://b.test/"])).fetch_trace.Nodup ∧
    RobotChecker.can_fetch failingRobotsOracle
        (robotsRun failingRobotsOracle (RobotChecker.init "SearchEngineBot/1.0" true)
          ["http://a.test/p"]) "http://[::1/x"
      = (true, robotsRun failingRobotsOracle (RobotChecker.init "SearchEngineBot/1.0" true)
          ["http://a.test/p"]) :=
  robots_fail_open failingRobotsOracle "SearchEngineBot/1.0"
    ["http://a.test/p"] ["http://b.test/"] "http://a.test/q" "http://[::1/x"
    "http://a.test" (by decide) (by decide) (by decide)

/-!
## DomainRateLimiter (source lines 109–127)

Wall-clock time is idealised as exact rational arithmetic: the `time.time()`
read at the start of a call is `now`, `time.sleep(w)` advances the clock by
exactly `w`, and the `time.time()` recorded after the sleep reads `now + w`.
-/

/-- The state of `DomainRateLimiter` (source lines 112–114). -/
structure DomainRateLimiter where
  domain_last_request : List (String × ℚ)
  default_delay : ℚ

/-- `DomainRateLimiter.__init__`. -/
def DomainRateLimiter.init (default_delay : ℚ) : DomainRateLimiter :=
  { domain_last_request := [], default_delay := default_delay }

/-- The sleep duration computed by `wait_if_needed` at clock `now`
(source lines 121–125): positive exactly when the origin has a recorded
last-request time less than `default_delay` ago. -/
def waitTime (rl : DomainRateLimiter) (domain : String) (now : ℚ) : ℚ :=
  match rl.domain_last_request.lookup domain with
  | none => 0
  | some last =>
    if now - last < rl.default_delay then rl.default_delay - (now - last) else 0

/-- `wait_if_needed` (source lines 116–127): sleep if needed, then
unconditionally record the post-sleep clock as the origin's new last-request
time.  Returns the post-sleep clock (the moment the caller proceeds to the
fetch) and the updated limiter; `none` models `urlparse` raising. -/
def wait_if_needed (rl : DomainRateLimiter) (url : String) (now : ℚ) :
    Option (ℚ × DomainRateLimiter) :=
  match originOf url with
  | none => none
  | some domain =>
    some (now + waitTime rl domain now,
      { rl with domain_last_request :=
          (domain, now + waitTime rl domain now) :: rl.domain_last_request })

/-- A rate-limited request run: the limiter state, the current clock, and the
trace of issued requests `(domain, issue time)`, newest first. -/
structure RLTrace where
  rl : DomainRateLimiter
  clock : ℚ
  issued : List (String × ℚ)

/-- Initial trace state at clock `t0`. -/
def rlInit (delay t0 : ℚ) : RLTrace := ⟨DomainRateLimiter.init delay, t0, []⟩

/-- Process one request: the caller arrives `call.2` after the previous call
returned and invokes `wait_if_needed`; the request itself is issued at the
post-sleep clock. -/
def rlStep (st : RLTrace) (call : String × ℚ) : RLTrace :=
  match wait_if_needed st.rl call.1 (st.clock + call.2) with
  | none => { st with clock := st.clock + call.2 }
  | some (t, rl') =>
    { rl := rl', clock := t
      issued :=
        match originOf call.1 with
        | some domain => (domain, t) :: st.issued
        | none => st.issued }

/-- Process a list of requests in order. -/
def rlRun (st : RLTrace) : List (String × ℚ) → RLTrace
  | [] => st
  | c :: cs => rlRun (rlStep st c) cs

/-- The issue times of requests to origin `d`, newest first. -/
def issueTimes (d : String) (issued : List (String × ℚ)) : List ℚ :=
  (issued.filter (fun e => decide (e.1 = d))).map (fun e => e.2)

theorem issueTimes_cons_self (d : String) (t : ℚ) (issued : List (String × ℚ)) :
    issueTimes d ((d, t) :: issued) = t :: issueTimes d issued := by
  simp [issueTimes]

theorem issueTimes_cons_ne {d d' : String} (h : ¬ d' = d) (t : ℚ)
    (issued : List (String × ℚ)) :
    issueTimes d ((d', t) :: issued) = issueTimes d issued := by
  simp [issueTimes, h]

/-- Whatever the clock reads, the computed sleep never makes the next issue
time come sooner than `last + delay` for a known origin. -/
theorem waitTime_spacing (rl : DomainRateLimiter) (domain : String)
    (now last : ℚ) (h : rl.domain_last_request.lookup domain = some last) :
    last + rl.default_delay ≤ now + waitTime rl domain now := by
  unfold waitTime
  rw [h]
  split
  next heq => simp at heq
  next last' heq =>
    have hll : last = last' := by injection heq
    subst hll
    split
    next hlt => linarith
    next hge => linarith [not_lt.mp hge]

/-- The rate-limiter invariant: the recorded last-request time of each origin
is the most recent issue time for that origin, and each origin's issue times
are spaced at least `delay` apart. -/
structure RLInv (delay : ℚ) (st : RLTrace) : Prop where
  delay_eq : st.rl.default_delay = delay
  last_eq_head : ∀ d, st.rl.domain_last_request.lookup d = (issueTimes d st.issued).head?
  spaced : ∀ d, List.Chain' (fun a b => b + delay ≤ a) (issueTimes d st.issued)

theorem rlInv_init (delay t0 : ℚ) : RLInv delay (rlInit delay t0) := by
  refine ⟨rfl, ?_, ?_⟩ <;> intro d <;> simp [rlInit, DomainRateLimiter.init, issueTimes]

theorem rlStep_inv {delay : ℚ} {st : RLTrace} {c : String × ℚ}
    (hs : RLInv delay st) : RLInv delay (rlStep st c) := by
  unfold rlStep
  cases horig : originOf c.1 with
  | none =>
    simp only [wait_if_needed, horig]
    exact ⟨hs.delay_eq, hs.last_eq_head, hs.spaced⟩
  | some domain =>
    simp only [wait_if_needed, horig]
    refine ⟨hs.delay_eq, ?_, ?_⟩
    · intro d
      by_cases hd : d = domain
      · subst hd
        rw [issueTimes_cons_self]
        simp [List.lookup_cons]
      · rw [issueTimes_cons_ne (fun h => hd h.symm)]
        rw [List.lookup_cons]
        have hbeq : (d == domain) = false := by
          simpa using hd
        rw [hbeq]
        exact hs.last_eq_head d
    · intro d
      by_cases hd : d = domain
      · subst hd
        rw [issueTimes_cons_self]
        rw [List.chain'_cons']
        refine ⟨?_, hs.spaced d⟩
        intro y hy
        have hlast : st.rl.domain_last_request.lookup d = some y := by
          rw [hs.last_eq_head d, hy]
        have := waitTime_spacing st.rl d (st.clock + c.2) y hlast
        rw [hs.delay_eq] at this
        exact this
      · rw [issueTimes_cons_ne (fun h => hd h.symm)]
        exact hs.spaced d

theorem rlRun_inv {delay : ℚ} {st : RLTrace} (calls : List (String × ℚ))
    (hs : RLInv delay st) : RLInv delay (rlRun st calls) := by
  induction calls generalizing st with
  | nil => exact hs
  | cons c cs ih => exact ih (rlStep_inv hs)

/-- C7: a `wait_if_needed` call for a URL whose origin was last requested less
than `default_delay` ago sleeps for exactly the remaining difference, every
call unconditionally records the post-sleep clock as the origin's new
last-request time, and consequently in any run the consecutive issue times of
each origin (newest first) are at least the configured delay apart. -/
theorem rate_limit_spacing :
    (∀ (rl : DomainRateLimiter) (url domain : String) (now last : ℚ),
        originOf url = some domain →
        rl.domain_last_request.lookup domain = some last →
        now - last < rl.default_delay →
        wait_if_needed rl url now =
          some (now + (rl.default_delay - (now - last)),
            ⟨(domain, now + (rl.default_delay - (now - last))) ::
                rl.domain_last_request, rl.default_delay⟩)) ∧
    (∀ (rl : DomainRateLimiter) (url : String) (now t : ℚ)
        (rl' : DomainRateLimiter),
        wait_if_needed rl url now = some (t, rl') →
        ∃ domain, originOf url = some domain ∧
          rl'.domain_last_request.lookup domain = some t) ∧
    (∀ (delay t0 : ℚ) (calls : List (String × ℚ)) (d : String),
        List.Chain' (fun a b => b + delay ≤ a)
          (issueTimes d (rlRun (rlInit delay t0) calls).issued)) := by
  refine ⟨?_, ?_, ?_⟩
  · intro rl url domain now last h1 h2 h3
    simp only [wait_if_needed, h1, waitTime, h2, if_pos h3]
  · intro rl url now t rl' h
    cases horig : originOf url with
    | none => simp [wait_if_needed, horig] at h
    | some domain =>
      refine ⟨domain, rfl, ?_⟩
      simp only [wait_if_needed, horig, Option.some.injEq, Prod.mk.injEq] at h
      obtain ⟨ht, hrl⟩ := h
      rw [← hrl, ← ht]
      simp [List.lookup_cons]
  · intro delay t0 calls d
    exact (rlRun_inv calls (rlInv_init delay t0)).spaced d

theorem rate_limit_spacing_witness :
    wait_if_needed ⟨[("http://a.test", 10)], 1⟩ "http://a.test/x" (21 / 2) =
      some (11, ⟨[("http://a.test", 11), ("http://a.test", 10)], 1⟩) ∧
    List.Chain' (fun a b => b + 1 ≤ a)
      (issueTimes "http://a.test"
        (rlRun (rlInit 1 0)
          [("http://a.test/x", 0), ("http://a.test/y", 1 / 2)]).issued) :=
  ⟨by
    have h := rate_limit_spacing.1 ⟨[("http://a.test", 10)], 1⟩ "http://a.test/x"
      "http://a.test" (21 / 2) 10 (by decide) (by decide) (by norm_num)
    rw [h]
    norm_num,
   rate_limit_spacing.2.2 1 0 [("http://a.test/x", 0), ("http://a.test/y", 1 / 2)]
     "http://a.test"⟩

/-!
## download_file (source lines 130–191)
-/

/-- The hard-coded `User-Agent` value of the browser-mimicking request headers
(source line 147). -/
def browserUserAgent : String :=
  "Mozilla/5.0 (Windows NT 10.0; Win64; x64) AppleWebKit/537.36 (KHTML, like Gecko) Chrome/120.0.0.0 Safari/537.36"

/-- The complete request-header dictionary passed to `requests.get`
(source lines 146–152). -/
def downloadRequestHeaders : List (String × String) :=
  [("User-Agent", browserUserAgent),
   ("Accept", "text/html,application/xhtml+xml,application/xml;q=0.9,*/*;q=0.8"),
   ("Accept-Language", "en-US,en;q=0.5"),
   ("Accept-Encoding", "gzip, deflate"),
   ("Connection", "keep-alive")]

/-- Python substring containment: `needle in hay`. -/
def containsSub (needle : List Char) : List Char → Bool
  | [] => needle.isEmpty
  | c :: rest => needle.isPrefixOf (c :: rest) || containsSub needle rest

/-- What `requests.get` produces for `download_file`: either an exception
(timeout / network error) or a response with status, `Content-Type` header
and body. -/
inductive FetchOutcome where
  | raised
  | response (status : Nat) (content_type : String) (body : String)

/-- A persisted document: the saved body together with its sidecar metadata
(source lines 167–178).  The recorded content type is the lower-cased header,
as the source lower-cases it before use. -/
structure SavedDoc where
  url : String
  status : Nat
  content_type : String
  body : String
deriving Repr, DecidableEq

/-- `download_file` (source lines 130–191) as a function of the robots
decision and the environment's response; `none` means no document and no
metadata are persisted (robots denial, exception, `raise_for_status` on a
4xx/5xx status, or the `'text/html' not in content_type` containment test on
the lower-cased header). -/
def download_file (robots_allowed : Bool) (url : String) (r : FetchOutcome) :
    Option SavedDoc :=
  if !robots_allowed then none
  else
    match r with
    | .raised => none
    | .response status ct body =>
      if 400 ≤ status then none
      else if !containsSub "text/html".data (ct.data.map Char.toLower) then none
      else some ⟨url, status, String.mk (ct.data.map Char.toLower), body⟩

/-!
## C8: crawler identification
-/

/-- C8 counterexample: with the identification string configured in the
source's `__main__` block, the robots checker carries that string, yet the
`User-Agent` header of the outgoing page request is the hard-coded browser
string — the identification string is not used in the request headers. -/
theorem user_agent_counterexample :
    downloadRequestHeaders.lookup "User-Agent" = some browserUserAgent ∧
    (RobotChecker.init "SearchEngineBot/1.0 (+http://yoursite.com/bot)" true).user_agent
      = "SearchEngineBot/1.0 (+http://yoursite.com/bot)" ∧
    downloadRequestHeaders.lookup "User-Agent"
      ≠ some "SearchEngineBot/1.0 (+http://yoursite.com/bot)" :=
  ⟨by decide, rfl, by decide⟩

/-- C8 (amended): the configured identification string is used as the robots
user agent — `bfs` hands it to `RobotChecker`, whose cached ruleset is
consulted with it — while every outgoing page request carries the fixed
browser `User-Agent` header, independent of the configuration. -/
theorem user_agent_usage (ua : String) (respect : Bool) (o : RobotsOracle)
    (rs : RuleSet) (url d : String) (h : originOf url = some d) :
    (RobotChecker.init ua respect).user_agent = ua ∧
    RobotChecker.can_fetch o ⟨[(d, rs)], ua, true, [], []⟩ url
      = (rs ua url, ⟨[(d, rs)], ua, true, [], []⟩) ∧
    downloadRequestHeaders.lookup "User-Agent" = some browserUserAgent := by
  refine ⟨rfl, ?_, by decide⟩
  simp [RobotChecker.can_fetch, h, List.lookup_cons]

theorem user_agent_usage_witness :
    (RobotChecker.init "SearchEngineBot/1.0" true).user_agent = "SearchEngineBot/1.0" ∧
    RobotChecker.can_fetch failingRobotsOracle
        ⟨[("http://a.test", fun _ _ => false)], "SearchEngineBot/1.0", true, [], []⟩
        "http://a.test/x"
      = ((fun _ _ => false : RuleSet) "SearchEngineBot/1.0" "http://a.test/x",
         ⟨[("http://a.test", fun _ _ => false)], "SearchEngineBot/1.0", true, [], []⟩) ∧
    downloadRequestHeaders.lookup "User-Agent" = some browserUserAgent :=
  user_agent_usage "SearchEngineBot/1.0" true failingRobotsOracle
    (fun _ _ => false) "http://a.test/x" "http://a.test" (by decide)

/-!
## C9: non-HTML rejection
-/

/-- C9 counterexample: a response whose `Content-Type` is not prefixed by
`text/html` but contains it as a substring is accepted and persisted, because
the source tests substring containment, not a prefix. -/
theorem content_type_counterexample :
    download_file true "http://a.test/doc"
        (.response 200 "application/octet-stream;profile=text/html" "payload")
      = some ⟨"http://a.test/doc", 200,
          "application/octet-stream;profile=text/html", "payload"⟩ ∧
    ("text/html".data.isPrefixOf
        "application/octet-stream;profile=text/html".data) = false :=
  ⟨by decide, by decide⟩

/-- C9 (amended): `download_file` persists a document exactly when the robots
check allowed the URL, `requests.get` returned a response, the status passed
`raise_for_status` (below 400), and the lower-cased `Content-Type` contains
`text/html` as a substring; in every other case nothing is persisted. -/
theorem download_file_html_filter (allowed : Bool) (url : String) (r : FetchOutcome) :
    download_file allowed url r ≠ none ↔
      (allowed = true ∧ ∃ status ct body, r = .response status ct body ∧
        status < 400 ∧
        containsSub "text/html".data (ct.data.map Char.toLower) = true) := by
  constructor
  · intro h
    cases allowed with
    | false => simp [download_file] at h
    | true =>
      cases r with
      | raised => simp [download_file] at h
      | response status ct body =>
        refine ⟨rfl, status, ct, body, rfl, ?_, ?_⟩
        · by_contra hge
          simp [download_file, Nat.le_of_not_lt hge] at h
        · by_contra hct
          simp [download_file, hct] at h
  · rintro ⟨rfl, status, ct, body, rfl, hst, hct⟩
    simp [download_file, hct, Nat.not_le_of_lt hst]

theorem download_file_html_filter_witness :
    download_file true "http://a.test/page"
        (.response 200 "text/html; charset=utf-8" "<html></html>") ≠ none :=
  (download_file_html_filter true "http://a.test/page"
      (.response 200 "text/html; charset=utf-8" "<html></html>")).mpr
    ⟨rfl, 200, "text/html; charset=utf-8", "<html></html>", rfl, by decide, by decide⟩

/-!
## C4 / C5: the URL normalization contract
-/

/-- Modelled from the spec: the URLNormalizer contract of §4.1 read literally —
reject when the URL cannot be parsed, lacks a scheme or host, or has a scheme
other than http/https; on success strip the fragment, retain path and query,
and remove a single trailing slash from the *path* unless the path is just
`/`. -/
def normalize_url_spec (s : String) : Option String :=
  match urlparseL s.data with
  | .error _ => none
  | .ok p =>
    if (p.scheme = "http".data ∨ p.scheme = "https".data) ∧ p.netloc ≠ [] then
      some (String.mk (p.scheme ++ "://".data ++ p.netloc ++
        (if p.path.getLast? = some '/' ∧ p.path ≠ ['/'] then p.path.dropLast
         else p.path) ++
        (if p.query ≠ [] then '?' :: p.query else [])))
    else none

/-- Modelled from the spec as amended: identical rejection rule, but the
single trailing slash is removed from the end of the whole assembled
`scheme://netloc+path(+?query)` string — so it may be taken from the query —
and only when the parsed path is longer than one character. -/
def normalize_url_amended (s : String) : Option String :=
  match urlparseL s.data with
  | .error _ => none
  | .ok p =>
    if (p.scheme = "http".data ∨ p.scheme = "https".data) ∧ p.netloc ≠ [] then
      some (String.mk (
        if (p.scheme ++ "://".data ++ p.netloc ++ p.path ++
              (if p.query ≠ [] then '?' :: p.query else [])).getLast? = some '/' ∧
            1 < p.path.length then
          (p.scheme ++ "://".data ++ p.netloc ++ p.path ++
            (if p.query ≠ [] then '?' :: p.query else [])).dropLast
        else
          p.scheme ++ "://".data ++ p.netloc ++ p.path ++
            (if p.query ≠ [] then '?' :: p.query else [])))
    else none

/-- C4 counterexample: on `http://a.test/x?q=/` the code removes the trailing
slash from the *query* (the query is not retained and no slash is removed from
the path), diverging from the literal reading of the spec. -/
theorem normalize_url_query_slash :
    normalize_url "http://a.test/x?q=/" = some "http://a.test/x?q=" ∧
    normalize_url_spec "http://a.test/x?q=/" = some "http://a.test/x?q=/" ∧
    (some "http://a.test/x?q=" : Option String) ≠ some "http://a.test/x?q=/" :=
  ⟨by decide, by decide, by decide⟩

theorem normalize_core_eq (p : UrlParts) :
    normalize_core p =
      p.scheme ++ [':', '/', '/'] ++ p.netloc ++ p.path ++
        (if p.query ≠ [] then '?' :: p.query else []) := by
  unfold normalize_core
  by_cases hq : p.query = [] <;> simp [hq]

/-- C4 (amended): `normalize_url` agrees everywhere with the amended contract:
null exactly on parse errors, missing scheme/host, or non-http(s) schemes; on
success the fragment (and any `;params` component) is dropped, and a single
trailing slash is removed from the end of the assembled string when the path
is longer than one character. -/
theorem normalize_url_contract (s : String) :
    normalize_url s = normalize_url_amended s := by
  unfold normalize_url normalizeL normalize_url_amended
  cases hp : urlparseL s.data with
  | error e => rfl
  | ok p =>
    dsimp only
    by_cases hsch : p.scheme = ['h', 't', 't', 'p'] ∨ p.scheme = ['h', 't', 't', 'p', 's']
    · by_cases hnet : p.netloc = []
      · rw [if_pos (Or.inr hnet), if_neg (by rintro ⟨-, hne⟩; exact hne hnet)]
        rfl
      · have hrej : ¬ (p.scheme = [] ∨ p.netloc = []) := by
          rintro (h | h)
          · rcases hsch with h' | h' <;> rw [h'] at h <;> exact absurd h (by decide)
          · exact hnet h
        rw [if_neg hrej, if_neg (not_not_intro hsch), normalize_core_eq p]
        by_cases hstrip :
            (p.scheme ++ [':', '/', '/'] ++ p.netloc ++ p.path ++
              (if p.query ≠ [] then '?' :: p.query else [])).getLast? = some '/' ∧
            1 < p.path.length
        · rw [if_pos hstrip,
            if_pos (show (p.scheme = ['h', 't', 't', 'p'] ∨
                p.scheme = ['h', 't', 't', 'p', 's']) ∧ p.netloc ≠ []
              from ⟨hsch, hnet⟩),
            if_pos hstrip]
          rfl
        · rw [if_neg hstrip,
            if_pos (show (p.scheme = ['h', 't', 't', 'p'] ∨
                p.scheme = ['h', 't', 't', 'p', 's']) ∧ p.netloc ≠ []
              from ⟨hsch, hnet⟩),
            if_neg hstrip]
          rfl
    · by_cases hrej : p.scheme = [] ∨ p.netloc = []
      · rw [if_pos hrej, if_neg (by rintro ⟨hs', -⟩; exact hsch hs')]
        rfl
      · rw [if_neg hrej, if_pos hsch, if_neg (by rintro ⟨hs', -⟩; exact hsch hs')]
        rfl

/-- C5 counterexample: `normalize_url` is not idempotent — on
`http://a.test/a//` renormalizing the output removes a second slash. -/
theorem normalize_url_not_idempotent :
    (normalize_url "http://a.test/a//").bind normalize_url
      ≠ normalize_url "http://a.test/a//" := by decide

/-!
### Structural facts about the split primitives
-/

theorem splitOnFirst_some {sep : Char} :
    ∀ {l a b : List Char}, splitOnFirst sep l = some (a, b) →
      l = a ++ sep :: b ∧ sep ∉ a
  | [], a, b, h => by simp [splitOnFirst] at h
  | c :: rest, a, b, h => by
    by_cases hc : c = sep
    · rw [splitOnFirst, if_pos hc] at h
      injection h with h'
      injection h' with h1 h2
      subst hc
      constructor
      · rw [← h1, ← h2]
        rfl
      · rw [← h1]
        exact List.not_mem_nil _
    · rw [splitOnFirst, if_neg hc] at h
      cases hsp : splitOnFirst sep rest with
      | none => rw [hsp] at h; simp at h
      | some q =>
        obtain ⟨a', b'⟩ := q
        rw [hsp] at h
        simp only [Option.map_some', Option.some.injEq] at h
        injection h with h1 h2
        obtain ⟨hr, hna⟩ := splitOnFirst_some hsp
        constructor
        · rw [← h1, ← h2, hr]
          rfl
        · rw [← h1]
          intro hmem
          rcases List.mem_cons.mp hmem with heq | hmem'
          · exact hc heq.symm
          · exact hna hmem'

theorem splitOnFirst_none {sep : Char} :
    ∀ {l : List Char}, splitOnFirst sep l = none → sep ∉ l
  | [], _ => List.not_mem_nil _
  | c :: rest, h => by
    by_cases hc : c = sep
    · rw [splitOnFirst, if_pos hc] at h
      exact Option.noConfusion h
    · rw [splitOnFirst, if_neg hc] at h
      cases hsp : splitOnFirst sep rest with
      | none =>
        intro hmem
        rcases List.mem_cons.mp hmem with heq | hmem'
        · exact hc heq.symm
        · exact splitOnFirst_none hsp hmem'
      | some q => rw [hsp] at h; simp at h

theorem splitOnFirst_not_mem {sep : Char} :
    ∀ {l : List Char}, sep ∉ l → splitOnFirst sep l = none
  | [], _ => rfl
  | c :: rest, h => by
    have hc : ¬ c = sep := fun he => h (he ▸ List.mem_cons_self c rest)
    rw [splitOnFirst, if_neg hc,
      splitOnFirst_not_mem (fun hm => h (List.mem_cons_of_mem _ hm))]
    rfl

theorem splitOnFirst_append {sep : Char} :
    ∀ {a : List Char} (b : List Char), sep ∉ a →
      splitOnFirst sep (a ++ sep :: b) = some (a, b)
  | [], b, _ => by rw [List.nil_append, splitOnFirst, if_pos rfl]
  | c :: a', b, h => by
    have hc : ¬ c = sep := fun he => h (he ▸ List.mem_cons_self c a')
    rw [List.cons_append, splitOnFirst, if_neg hc,
      splitOnFirst_append b (fun hm => h (List.mem_cons_of_mem _ hm))]
    rfl

theorem takeWhile_dropWhile_append {p : Char → Bool} :
    ∀ {a : List Char} (b : List Char), (∀ c ∈ a, p c = true) →
      (b = [] ∨ ∃ c t, b = c :: t ∧ p c = false) →
      (a ++ b).takeWhile p = a ∧ (a ++ b).dropWhile p = b
  | [], b, _, hb => by
    rcases hb with rfl | ⟨c, t, rfl, hc⟩
    · exact ⟨rfl, rfl⟩
    · rw [List.nil_append]
      exact ⟨by simp [List.takeWhile_cons, hc], by simp [List.dropWhile_cons, hc]⟩
  | x :: a', b, ha, hb => by
    have hx : p x = true := ha x (List.mem_cons_self _ _)
    have ih := takeWhile_dropWhile_append (a := a') b
      (fun c hc => ha c (List.mem_cons_of_mem _ hc)) hb
    rw [List.cons_append, List.takeWhile_cons, List.dropWhile_cons, hx]
    simp only [if_true]
    exact ⟨by rw [ih.1], by rw [ih.2]⟩

theorem dropWhile_head_not {p : Char → Bool} :
    ∀ {l : List Char} {c : Char} {t : List Char},
      List.dropWhile p l = c :: t → p c = false
  | [], c, t, h => by simp at h
  | x :: xs, c, t, h => by
    by_cases hx : p x
    · rw [List.dropWhile_cons, if_pos hx] at h
      exact dropWhile_head_not h
    · rw [List.dropWhile_cons, if_neg hx] at h
      injection h with h1 _
      rw [← h1]
      exact Bool.eq_false_iff.mpr hx

/-!
### Shape of the parse result
-/

/-- The scheme remainder is always a suffix-part of the input. -/
theorem splitScheme_snd_subset (l : List Char) : (splitScheme l).2 ⊆ l := by
  unfold splitScheme
  cases hsp : splitOnFirst ':' l with
  | none => exact fun c hc => hc
  | some q =>
    obtain ⟨pre, post⟩ := q
    dsimp only
    cases pre with
    | nil => exact fun c hc => hc
    | cons x xs =>
      dsimp only
      split
      · intro c hc
        rw [(splitOnFirst_some hsp).1]
        exact List.mem_append.mpr (Or.inr (List.mem_cons_of_mem _ hc))
      · exact fun c hc => hc

theorem splitNetloc_fst_clean (l : List Char) :
    ∀ c ∈ (splitNetloc l).1, netlocStop c = false := by
  unfold splitNetloc
  split
  · intro c hc
    have := List.mem_takeWhile_imp hc
    simpa using this
  · intro c hc
    simp at hc

theorem splitNetloc_fst_subset (l : List Char) : (splitNetloc l).1 ⊆ l := by
  unfold splitNetloc
  split
  next rest =>
    intro c hc
    exact List.mem_cons_of_mem _ (List.mem_cons_of_mem _
      (List.takeWhile_subset _ hc))
  · intro c hc
    simp at hc

theorem splitNetloc_snd_subset (l : List Char) : (splitNetloc l).2 ⊆ l := by
  unfold splitNetloc
  split
  next rest =>
    intro c hc
    exact List.mem_cons_of_mem _ (List.mem_cons_of_mem _
      (List.dropWhile_subset _ hc))
  · exact fun c hc => hc

/-- When a netloc was produced, the remainder is empty or begins with a
stop character. -/
theorem splitNetloc_snd_shape (l : List Char) :
    (splitNetloc l).1 = [] ∨ (splitNetloc l).2 = [] ∨
      ∃ c t, (splitNetloc l).2 = c :: t ∧ netlocStop c = true := by
  unfold splitNetloc
  split
  next rest =>
    right
    cases hd : rest.dropWhile (fun c => !netlocStop c) with
    | nil => exact Or.inl rfl
    | cons c t =>
      refine Or.inr ⟨c, t, rfl, ?_⟩
      have := dropWhile_head_not hd
      simpa using this
  · exact Or.inl rfl

/-- `splitFrag` returns a hash-free part that the input extends. -/
theorem splitFrag_shape (l : List Char) :
    '#' ∉ (splitFrag l).1 ∧ ∃ r, l = (splitFrag l).1 ++ r := by
  unfold splitFrag
  cases hsp : splitOnFirst '#' l with
  | none =>
    dsimp only
    exact ⟨splitOnFirst_none hsp, [], (List.append_nil l).symm⟩
  | some q =>
    obtain ⟨a, b⟩ := q
    dsimp only
    obtain ⟨hl, hna⟩ := splitOnFirst_some hsp
    exact ⟨hna, '#' :: b, hl⟩

/-- `splitQuery` returns a question-mark-free part that the input extends,
and the query part is a member-wise subset of the input. -/
theorem splitQuery_shape (l : List Char) :
    '?' ∉ (splitQuery l).1 ∧ (∃ r, l = (splitQuery l).1 ++ r) ∧
      (splitQuery l).2 ⊆ l := by
  unfold splitQuery
  cases hsp : splitOnFirst '?' l with
  | none =>
    dsimp only
    exact ⟨splitOnFirst_none hsp, ⟨[], (List.append_nil l).symm⟩, List.nil_subset l⟩
  | some q =>
    obtain ⟨a, b⟩ := q
    dsimp only
    obtain ⟨hl, hna⟩ := splitOnFirst_some hsp
    refine ⟨hna, ⟨'?' :: b, hl⟩, ?_⟩
    intro c hc
    rw [hl]
    exact List.mem_append.mpr (Or.inr (List.mem_cons_of_mem _ hc))

theorem netlocStop_char {c : Char} (h : netlocStop c = true) :
    c = '/' ∨ c = '?' ∨ c = '#' := by
  have := h
  unfold netlocStop at this
  rcases Bool.or_eq_true_iff.mp this with h' | h'
  · rcases Bool.or_eq_true_iff.mp h' with h'' | h''
    · exact Or.inl (by simpa using h'')
    · exact Or.inr (Or.inl (by simpa using h''))
  · exact Or.inr (Or.inr (by simpa using h'))

theorem sanitize_safe {l0 : List Char} : ∀ c ∈ sanitizeUrl l0, isUnsafeUrlChar c = false := by
  intro c hc
  unfold sanitizeUrl at hc
  have := List.of_mem_filter hc
  simpa using this

/-- Well-formedness of a successful http(s) parse with non-empty netloc, as
needed to re-parse a normalized URL. -/
structure GoodParts (p : UrlParts) : Prop where
  scheme_ok : p.scheme = "http".data ∨ p.scheme = "https".data
  netloc_ne : p.netloc ≠ []
  netloc_clean : ∀ c ∈ p.netloc, netlocStop c = false
  netloc_brackets : p.netloc.contains '[' = p.netloc.contains ']'
  netloc_safe : ∀ c ∈ p.netloc, isUnsafeUrlChar c = false
  path_start : p.path = [] ∨ ∃ t, p.path = '/' :: t
  path_no_hash : '#' ∉ p.path
  path_no_query : '?' ∉ p.path
  path_safe : ∀ c ∈ p.path, isUnsafeUrlChar c = false
  path_lastseg : ';' ∉ p.path.reverse.takeWhile (fun c => c != '/')
  query_no_hash : '#' ∉ p.query
  query_safe : ∀ c ∈ p.query, isUnsafeUrlChar c = false

/-- The component facts delivered by a successful `urlsplit`. -/
theorem urlsplit_shape {l0 : List Char} {p : UrlParts} (h : urlsplitL l0 = .ok p) :
    (∀ c ∈ p.netloc, netlocStop c = false) ∧
    p.netloc.contains '[' = p.netloc.contains ']' ∧
    (∀ c ∈ p.netloc, isUnsafeUrlChar c = false) ∧
    (p.netloc ≠ [] → (p.path = [] ∨ ∃ t, p.path = '/' :: t)) ∧
    '#' ∉ p.path ∧ '?' ∉ p.path ∧
    (∀ c ∈ p.path, isUnsafeUrlChar c = false) ∧
    '#' ∉ p.query ∧
    (∀ c ∈ p.query, isUnsafeUrlChar c = false) ∧
    p.params = [] := by
  unfold urlsplitL at h
  dsimp only at h
  split at h
  · exact Except.noConfusion h
  next hbr =>
    injection h with h'
    subst h'
    dsimp only
    obtain ⟨hffh, r1, hr1⟩ := splitFrag_shape (splitNetloc (splitScheme (sanitizeUrl l0)).2).2
    obtain ⟨hptq, ⟨r2, hr2⟩, hqsub⟩ := splitQuery_shape (splitFrag (splitNetloc (splitScheme (sanitizeUrl l0)).2).2).1
    have hptsubff : (splitQuery (splitFrag (splitNetloc (splitScheme (sanitizeUrl l0)).2).2).1).1 ⊆
        (splitFrag (splitNetloc (splitScheme (sanitizeUrl l0)).2).2).1 := by
      intro c hc
      rw [hr2]
      exact List.mem_append.mpr (Or.inl hc)
    have hffsubx : (splitFrag (splitNetloc (splitScheme (sanitizeUrl l0)).2).2).1 ⊆
        (splitNetloc (splitScheme (sanitizeUrl l0)).2).2 := by
      intro c hc
      rw [hr1]
      exact List.mem_append.mpr (Or.inl hc)
    have hxsubl : (splitNetloc (splitScheme (sanitizeUrl l0)).2).2 ⊆ sanitizeUrl l0 :=
      fun c hc => splitScheme_snd_subset _ (splitNetloc_snd_subset _ hc)
    refine ⟨splitNetloc_fst_clean _, by simpa using hbr, ?_, ?_, ?_, hptq, ?_, ?_, ?_, rfl⟩
    · intro c hc
      exact sanitize_safe c (splitScheme_snd_subset _ (splitNetloc_fst_subset _ hc))
    · intro hne
      rcases splitNetloc_snd_shape (splitScheme (sanitizeUrl l0)).2 with hn0 | hx0 | ⟨c, t, hxc, hstop⟩
      · exact absurd hn0 hne
      · left
        have h1 : (splitFrag (splitNetloc (splitScheme (sanitizeUrl l0)).2).2).1 ++ r1 = [] := by
          rw [← hr1]
          exact hx0
        have h2 : (splitQuery (splitFrag (splitNetloc (splitScheme (sanitizeUrl l0)).2).2).1).1 ++ r2 = [] := by
          rw [← hr2]
          exact (List.append_eq_nil.mp h1).1
        exact (List.append_eq_nil.mp h2).1
      · cases hpt : (splitQuery (splitFrag (splitNetloc (splitScheme (sanitizeUrl l0)).2).2).1).1 with
        | nil => exact Or.inl rfl
        | cons d u =>
          right
          have hx : (splitNetloc (splitScheme (sanitizeUrl l0)).2).2 = d :: (u ++ r2 ++ r1) := by
            rw [hr1, hr2, hpt]
            simp [List.append_assoc]
          rw [hxc] at hx
          injection hx with hcd _
          have hdmem : d ∈ (splitQuery (splitFrag (splitNetloc (splitScheme (sanitizeUrl l0)).2).2).1).1 := by
            rw [hpt]; exact List.mem_cons_self _ _
          have hdq : d ≠ '?' := fun he => hptq (he ▸ hdmem)
          have hdh : d ≠ '#' := fun he => hffh (he ▸ hptsubff hdmem)
          rcases netlocStop_char hstop with hc' | hc' | hc'
          · exact ⟨u, by rw [← hcd, hc']⟩
          · exact absurd (hcd ▸ hc') hdq
          · exact absurd (hcd ▸ hc') hdh
    · intro hmem
      exact hffh (hptsubff hmem)
    · intro c hc
      exact sanitize_safe c (hxsubl (hffsubx (hptsubff hc)))
    · intro hmem
      exact hffh (hqsub hmem)
    · intro c hc
      exact sanitize_safe c (hxsubl (hffsubx (hqsub hc)))

/-- The path part returned by `_splitparams` is an initial part of its
input. -/
theorem splitparams_pre (u : List Char) : ∃ r, u = (splitparamsL u).1 ++ r := by
  unfold splitparamsL
  dsimp only
  split
  next hcon =>
    cases hsp : splitOnFirst ';' ((u.reverse.takeWhile (fun c => c != '/')).reverse) with
    | none =>
      dsimp only
      exact ⟨[], (List.append_nil u).symm⟩
    | some q =>
      obtain ⟨a, b⟩ := q
      dsimp only
      refine ⟨';' :: b, ?_⟩
      calc u = u.reverse.reverse := (List.reverse_reverse u).symm
        _ = (u.reverse.takeWhile (fun c => c != '/') ++
              u.reverse.dropWhile (fun c => c != '/')).reverse := by
            rw [List.takeWhile_append_dropWhile]
        _ = (u.reverse.dropWhile (fun c => c != '/')).reverse ++
              (u.reverse.takeWhile (fun c => c != '/')).reverse := by
            rw [List.reverse_append]
        _ = (u.reverse.dropWhile (fun c => c != '/')).reverse ++ (a ++ ';' :: b) := by
            rw [(splitOnFirst_some hsp).1]
        _ = ((u.reverse.dropWhile (fun c => c != '/')).reverse ++ a) ++ ';' :: b := by
            rw [List.append_assoc]
  next hcon =>
    cases hsp : splitOnFirst ';' u with
    | none =>
      dsimp only
      exact ⟨[], (List.append_nil u).symm⟩
    | some q =>
      obtain ⟨a, b⟩ := q
      dsimp only
      exact ⟨';' :: b, (splitOnFirst_some hsp).1⟩

/-- After `_splitparams`, the last path segment carries no semicolon. -/
theorem splitparams_lastseg (u : List Char) :
    ';' ∉ ((splitparamsL u).1).reverse.takeWhile (fun c => c != '/') := by
  unfold splitparamsL
  dsimp only
  split
  next hcon =>
    cases hsp : splitOnFirst ';' ((u.reverse.takeWhile (fun c => c != '/')).reverse) with
    | none =>
      dsimp only
      intro hmem
      exact splitOnFirst_none hsp (List.mem_reverse.mpr hmem)
    | some q =>
      obtain ⟨a, b⟩ := q
      dsimp only
      obtain ⟨hseg, hna⟩ := splitOnFirst_some hsp
      have hslash : ∀ c ∈ a.reverse, (c != '/') = true := by
        intro c hc
        have hc' : c ∈ (u.reverse.takeWhile (fun c => c != '/')).reverse := by
          rw [hseg]
          exact List.mem_append.mpr (Or.inl (List.mem_reverse.mp hc))
        exact List.mem_takeWhile_imp (p := fun c => c != '/') (List.mem_reverse.mp hc')
      have hpre : u.reverse.dropWhile (fun c => c != '/') = [] ∨
          ∃ c t, u.reverse.dropWhile (fun c => c != '/') = c :: t ∧ (c != '/') = false := by
        cases hd : u.reverse.dropWhile (fun c => c != '/') with
        | nil => exact Or.inl rfl
        | cons c t =>
          exact Or.inr ⟨c, t, rfl, dropWhile_head_not (p := fun c => c != '/') hd⟩
      have hrev : ((u.reverse.dropWhile (fun c => c != '/')).reverse ++ a).reverse
          = a.reverse ++ u.reverse.dropWhile (fun c => c != '/') := by
        rw [List.reverse_append, List.reverse_reverse]
      rw [hrev]
      rw [(takeWhile_dropWhile_append (a := a.reverse)
        (u.reverse.dropWhile (fun c => c != '/')) hslash hpre).1]
      intro hmem
      exact hna (List.mem_reverse.mp hmem)
  next hcon =>
    cases hsp : splitOnFirst ';' u with
    | none =>
      dsimp only
      intro hmem
      exact splitOnFirst_none hsp (List.mem_reverse.mp (List.takeWhile_subset _ hmem))
    | some q =>
      obtain ⟨a, b⟩ := q
      dsimp only
      intro hmem
      exact (splitOnFirst_some hsp).2 (List.mem_reverse.mp (List.takeWhile_subset _ hmem))

/-- `_splitparams` is the identity on a path whose last segment has no
semicolon. -/
theorem splitparams_id {u : List Char}
    (h : ';' ∉ u.reverse.takeWhile (fun c => c != '/')) :
    splitparamsL u = (u, []) := by
  unfold splitparamsL
  dsimp only
  split
  next hcon =>
    rw [splitOnFirst_not_mem (fun hm => h (List.mem_reverse.mp hm))]
  next hcon =>
    have hnoslash : ∀ c ∈ u.reverse, (c != '/') = true := by
      intro c hc
      have hcu : c ∈ u := List.mem_reverse.mp hc
      have hne : ¬ c = '/' := by
        intro he
        subst he
        exact hcon (by simp [hcu])
      simpa using hne
    have htw : u.reverse.takeWhile (fun c => c != '/') = u.reverse :=
      List.takeWhile_eq_self_iff.mpr hnoslash
    rw [htw] at h
    rw [splitOnFirst_not_mem (fun hm => h (List.mem_reverse.mpr hm))]

/-- A successful http(s) parse with non-empty netloc yields well-formed
components. -/
theorem urlparse_good {l0 : List Char} {p : UrlParts} (h : urlparseL l0 = .ok p)
    (hsch : p.scheme = "http".data ∨ p.scheme = "https".data)
    (hnet : p.netloc ≠ []) : GoodParts p := by
  unfold urlparseL at h
  cases hsp : urlsplitL l0 with
  | error e => rw [hsp] at h; exact Except.noConfusion h
  | ok p0 =>
    rw [hsp] at h
    dsimp only at h
    split at h
    next hcond =>
      injection h with h'
      subst h'
      obtain ⟨hclean, hbrack, hnsafe, hstart, hph, hpq, hpsafe, hqh, hqsafe, hparams⟩ :=
        urlsplit_shape hsp
      obtain ⟨r, hr⟩ := splitparams_pre p0.path
      dsimp only at hsch hnet ⊢
      refine ⟨hsch, hnet, hclean, hbrack, hnsafe, ?_, ?_, ?_, ?_,
        splitparams_lastseg p0.path, hqh, hqsafe⟩
      · rcases hstart hnet with h0 | ⟨t, ht⟩
        · left
          have h1 : (splitparamsL p0.path).1 ++ r = [] := by
            rw [← hr]
            exact h0
          exact (List.append_eq_nil.mp h1).1
        · cases hres : (splitparamsL p0.path).1 with
          | nil => exact Or.inl rfl
          | cons d u =>
            right
            have hdu : p0.path = d :: (u ++ r) := by
              rw [hr, hres]
              rfl
            rw [ht] at hdu
            injection hdu with h1 h2
            exact ⟨u, by rw [← h1]⟩
      · intro hmem
        exact hph (by rw [hr]; exact List.mem_append.mpr (Or.inl hmem))
      · intro hmem
        exact hpq (by rw [hr]; exact List.mem_append.mpr (Or.inl hmem))
      · intro c hc
        exact hpsafe c (by rw [hr]; exact List.mem_append.mpr (Or.inl hc))
    next hcond =>
      injection h with h'
      subst h'
      obtain ⟨hclean, hbrack, hnsafe, hstart, hph, hpq, hpsafe, hqh, hqsafe, hparams⟩ :=
        urlsplit_shape hsp
      refine ⟨hsch, hnet, hclean, hbrack, hnsafe, hstart hnet, hph, hpq, hpsafe, ?_,
        hqh, hqsafe⟩
      have huse : uses_params.contains (String.mk p0.scheme) = true := by
        rcases hsch with h' | h' <;> rw [h'] <;> decide
      have hnosemi : ';' ∉ p0.path := by
        intro hm
        exact hcond (by rw [huse, Bool.true_and]; simp [hm])
      intro hmem
      exact hnosemi (List.mem_reverse.mp (List.takeWhile_subset _ hmem))

/-!
### Re-parsing a normalized URL
-/

theorem sanitize_id {l : List Char}
    (hne : l = [] ∨ ∃ c t, l = c :: t ∧ isC0Space c = false)
    (hsafe : ∀ c ∈ l, isUnsafeUrlChar c = false) : sanitizeUrl l = l := by
  unfold sanitizeUrl
  have hdrop : l.dropWhile isC0Space = l := by
    rcases hne with rfl | ⟨c, t, rfl, hc⟩
    · rfl
    · rw [List.dropWhile_cons, if_neg (by simp [hc])]
  rw [hdrop]
  exact List.filter_eq_self.mpr (fun a ha => by rw [hsafe a ha]; rfl)

theorem splitScheme_of {sch rest : List Char} (hcolon : ':' ∉ sch)
    (hform : ∃ c t, sch = c :: t ∧ (c.isAlpha && (c :: t).all schemeCharB) = true)
    (hlower : sch.map Char.toLower = sch) :
    splitScheme (sch ++ ':' :: rest) = (sch, rest) := by
  unfold splitScheme
  rw [splitOnFirst_append rest hcolon]
  obtain ⟨c, t, rfl, hct⟩ := hform
  dsimp only
  rw [if_pos hct, hlower]

theorem splitNetloc_of {netloc tail : List Char}
    (hclean : ∀ c ∈ netloc, netlocStop c = false)
    (htail : tail = [] ∨ ∃ c t, tail = c :: t ∧ netlocStop c = true) :
    splitNetloc ('/' :: '/' :: (netloc ++ tail)) = (netloc, tail) := by
  unfold splitNetloc
  have hsplit := takeWhile_dropWhile_append (p := fun c => !netlocStop c)
    (a := netloc) tail
    (fun c hc => by show (!netlocStop c) = true; rw [hclean c hc]; rfl)
    (by
      rcases htail with rfl | ⟨c, t, rfl, hc⟩
      · exact Or.inl rfl
      · exact Or.inr ⟨c, t, rfl, by show (!netlocStop c) = false; rw [hc]; rfl⟩)
  show ((netloc ++ tail).takeWhile (fun c => !netlocStop c),
    (netloc ++ tail).dropWhile (fun c => !netlocStop c)) = (netloc, tail)
  rw [hsplit.1, hsplit.2]

theorem splitFrag_of_no_hash {l : List Char} (h : '#' ∉ l) : splitFrag l = (l, []) := by
  unfold splitFrag
  rw [splitOnFirst_not_mem h]

theorem splitQuery_of_no_q {l : List Char} (h : '?' ∉ l) : splitQuery l = (l, []) := by
  unfold splitQuery
  rw [splitOnFirst_not_mem h]

theorem splitQuery_append {a : List Char} (b : List Char) (h : '?' ∉ a) :
    splitQuery (a ++ '?' :: b) = (a, b) := by
  unfold splitQuery
  rw [splitOnFirst_append b h]

/-- Re-parsing the string assembled from well-formed http(s) components
recovers exactly those components. -/
theorem urlparse_roundtrip_aux {sch netloc path query : List Char}
    (hschOk : sch = "http".data ∨ sch = "https".data)
    (hclean : ∀ c ∈ netloc, netlocStop c = false)
    (hbrack : netloc.contains '[' = netloc.contains ']')
    (hnsafe : ∀ c ∈ netloc, isUnsafeUrlChar c = false)
    (hstart : path = [] ∨ ∃ t, path = '/' :: t)
    (hph : '#' ∉ path) (hpq : '?' ∉ path)
    (hpsafe : ∀ c ∈ path, isUnsafeUrlChar c = false)
    (hlast : ';' ∉ path.reverse.takeWhile (fun c => c != '/'))
    (hqh : '#' ∉ query)
    (hqsafe : ∀ c ∈ query, isUnsafeUrlChar c = false) :
    urlparseL (sch ++ [':', '/', '/'] ++ netloc ++ path ++
      (if query ≠ [] then '?' :: query else [])) =
    .ok ⟨sch, netloc, path, [], query, []⟩ := by
  have hcolon : ':' ∉ sch := by
    rcases hschOk with rfl | rfl <;> decide
  have hform : ∃ c t, sch = c :: t ∧ (c.isAlpha && (c :: t).all schemeCharB) = true := by
    rcases hschOk with rfl | rfl
    · exact ⟨'h', _, rfl, by decide⟩
    · exact ⟨'h', _, rfl, by decide⟩
  have hlower : sch.map Char.toLower = sch := by
    rcases hschOk with rfl | rfl <;> decide
  have hsafe_sch : ∀ c ∈ sch, isUnsafeUrlChar c = false := by
    rcases hschOk with rfl | rfl <;> decide
  have huse : uses_params.contains (String.mk sch) = true := by
    rcases hschOk with rfl | rfl <;> decide
  have hopt_hash : '#' ∉ (if query ≠ [] then '?' :: query else []) := by
    by_cases hq : query = []
    · rw [if_neg (by simpa using hq)]
      exact List.not_mem_nil _
    · rw [if_pos hq]
      intro hm
      rcases List.mem_cons.mp hm with he | hm'
      · exact absurd he (by decide)
      · exact hqh hm'
  have hopt_safe : ∀ c ∈ (if query ≠ [] then '?' :: query else []),
      isUnsafeUrlChar c = false := by
    by_cases hq : query = []
    · rw [if_neg (by simpa using hq)]
      intro c hc
      simp at hc
    · rw [if_pos hq]
      intro c hc
      rcases List.mem_cons.mp hc with rfl | hm'
      · decide
      · exact hqsafe c hm'
  have htail : (path ++ (if query ≠ [] then '?' :: query else [])) = [] ∨
      ∃ c t, (path ++ (if query ≠ [] then '?' :: query else [])) = c :: t ∧
        netlocStop c = true := by
    rcases hstart with rfl | ⟨t, rfl⟩
    · rw [List.nil_append]
      by_cases hq : query = []
      · left
        rw [if_neg (by simpa using hq)]
      · right
        exact ⟨'?', query, by rw [if_pos hq], by decide⟩
    · exact Or.inr ⟨'/', t ++ (if query ≠ [] then '?' :: query else []),
        List.cons_append '/' t _, by decide⟩
  have hsafe_all : ∀ c ∈ sch ++ [':', '/', '/'] ++ netloc ++ path ++
      (if query ≠ [] then '?' :: query else []), isUnsafeUrlChar c = false := by
    intro c hc
    rcases List.mem_append.mp hc with hc | hc
    · rcases List.mem_append.mp hc with hc | hc
      · rcases List.mem_append.mp hc with hc | hc
        · rcases List.mem_append.mp hc with hc | hc
          · exact hsafe_sch c hc
          · have : c = ':' ∨ c = '/' ∨ c = '/' := by simpa using hc
            rcases this with rfl | rfl | rfl <;> decide
        · exact hnsafe c hc
      · exact hpsafe c hc
    · exact hopt_safe c hc
  have hC0 : (sch ++ [':', '/', '/'] ++ netloc ++ path ++
      (if query ≠ [] then '?' :: query else [])) = [] ∨
      ∃ c t, (sch ++ [':', '/', '/'] ++ netloc ++ path ++
        (if query ≠ [] then '?' :: query else [])) = c :: t ∧ isC0Space c = false := by
    rcases hschOk with rfl | rfl
    · exact Or.inr ⟨'h', _, rfl, by decide⟩
    · exact Or.inr ⟨'h', _, rfl, by decide⟩
  have hvform : sch ++ [':', '/', '/'] ++ netloc ++ path ++
      (if query ≠ [] then '?' :: query else [])
      = sch ++ ':' :: ('/' :: '/' :: (netloc ++ (path ++
          (if query ≠ [] then '?' :: query else [])))) := by
    simp [List.append_assoc]
  have hbne : ¬ ((netloc.contains '[' != netloc.contains ']') = true) := by
    rw [hbrack]
    simp
  have hsplit : urlsplitL (sch ++ [':', '/', '/'] ++ netloc ++ path ++
      (if query ≠ [] then '?' :: query else []))
      = .ok ⟨sch, netloc, path, [], query, []⟩ := by
    unfold urlsplitL
    dsimp only
    rw [sanitize_id hC0 hsafe_all, hvform, splitScheme_of hcolon hform hlower]
    dsimp only
    rw [splitNetloc_of hclean htail]
    dsimp only
    rw [if_neg hbne]
    rw [splitFrag_of_no_hash (by
      intro hm
      rcases List.mem_append.mp hm with hm | hm
      · exact hph hm
      · exact hopt_hash hm)]
    dsimp only
    by_cases hq : query = []
    · subst hq
      rw [show (if ([] : List Char) ≠ [] then '?' :: ([] : List Char) else []) = []
          from by simp]
      rw [List.append_nil, splitQuery_of_no_q hpq]
    · rw [if_pos hq, splitQuery_append query hpq]
  unfold urlparseL
  rw [hsplit]
  dsimp only
  cases hsemi : path.contains ';' with
  | false =>
    rw [Bool.and_false, if_neg Bool.false_ne_true]
  | true =>
    rw [Bool.and_true, huse, if_pos rfl, splitparams_id hlast]

/-- Re-parsing the pre-strip normalized string of a good parse recovers the
components (with params and fragment cleared). -/
theorem urlparse_roundtrip {p : UrlParts} (g : GoodParts p) :
    urlparseL (p.scheme ++ [':', '/', '/'] ++ p.netloc ++ p.path ++
      (if p.query ≠ [] then '?' :: p.query else [])) =
    .ok ⟨p.scheme, p.netloc, p.path, [], p.query, []⟩ :=
  urlparse_roundtrip_aux g.scheme_ok g.netloc_clean g.netloc_brackets
    g.netloc_safe g.path_start g.path_no_hash g.path_no_query g.path_safe
    g.path_lastseg g.query_no_hash g.query_safe

/-- `normalize_url` is a fixpoint on any assembled good-parts string on which
the trailing-slash rule does not fire. -/
theorem normalizeL_fix {p : UrlParts} (g : GoodParts p)
    (hstrip : ¬ ((normalize_core p).getLast? = some '/' ∧ 1 < p.path.length)) :
    normalizeL (normalize_core p) = some (normalize_core p) := by
  have hrej : ¬ (p.scheme = [] ∨ p.netloc = []) := by
    rintro (h | h)
    · rcases g.scheme_ok with h' | h' <;> rw [h'] at h <;> exact absurd h (by decide)
    · exact g.netloc_ne h
  have hsch2 : p.scheme = ['h', 't', 't', 'p'] ∨ p.scheme = ['h', 't', 't', 'p', 's'] := by
    rcases g.scheme_ok with h | h
    · left; rw [h]
    · right; rw [h]
  rw [normalize_core_eq p] at hstrip ⊢
  unfold normalizeL
  rw [urlparse_roundtrip g]
  dsimp only
  rw [normalize_core_eq]
  dsimp only
  rw [if_neg hrej, if_neg (not_not_intro hsch2), if_neg hstrip]

/-- C5 (amended): `normalize_url` is a deterministic function, and it is
idempotent on every valid input whose normalization does not remove a
trailing slash — whenever `normalize_url u` returns the assembled
`scheme://netloc+path(+?query)` string unmodified,
`normalize_url (normalize_url u) = normalize_url u`.  (When the
trailing-slash rule fires, a second application may remove further
characters: see `normalize_url_not_idempotent`.) -/
theorem normalize_url_idempotent (u : String) (p : UrlParts)
    (h1 : urlparseL u.data = .ok p)
    (h2 : normalize_url u = some (String.mk (normalize_core p))) :
    (normalize_url u).bind normalize_url = normalize_url u := by
  have h2' : normalizeL u.data = some (normalize_core p) := by
    unfold normalize_url at h2
    cases hn : normalizeL u.data with
    | none => rw [hn] at h2; simp at h2
    | some w =>
      rw [hn] at h2
      simp only [Option.map_some', Option.some.injEq] at h2
      have hw : w = normalize_core p := congrArg String.data h2
      rw [hw]
  unfold normalizeL at h2'
  rw [h1] at h2'
  dsimp only at h2'
  split at h2'
  · exact absurd h2' (by simp)
  next hrej =>
    split at h2'
    · exact absurd h2' (by simp)
    next hsch' =>
      split at h2'
      next hstrip =>
        exfalso
        have hd : (normalize_core p).dropLast = normalize_core p := by
          injection h2'
        have hne : normalize_core p ≠ [] := by
          intro h0
          rw [h0] at hstrip
          simp at hstrip
        have hlen := congrArg List.length hd
        rw [List.length_dropLast] at hlen
        have hpos : 0 < (normalize_core p).length := List.length_pos.mpr hne
        omega
      next hstrip =>
        have g : GoodParts p :=
          urlparse_good h1 (not_not.mp hsch') (fun h => hrej (Or.inr h))
        have hfix := normalizeL_fix g hstrip
        rw [h2]
        show normalize_url (String.mk (normalize_core p))
          = some (String.mk (normalize_core p))
        show (normalizeL (normalize_core p)).map String.mk
          = some (String.mk (normalize_core p))
        rw [hfix]
        rfl

theorem normalize_url_idempotent_witness :
    (normalize_url "http://a.test/x?q=1").bind normalize_url
      = normalize_url "http://a.test/x?q=1" :=
  normalize_url_idempotent "http://a.test/x?q=1"
    ⟨"http".data, "a.test".data, "/x".data, [], "q=1".data, []⟩
    (by rfl) (by decide)

end Crawler
